import Mathlib

/-!
Verification development for the Indicator & Signal Fusion Engine of
`trading-signals-app` (`src/app.py`).

The engine is embedded shallowly:

* Prices are exact rationals (`ℚ`), idealizing Python floats.
* pandas series operations that can produce NaN or infinities (`diff`,
  `rolling(...).mean()` on the RSI gain/loss chain, and the division
  `gain / loss`) are modelled by `FVq`, a rational extended with `pinf`,
  `ninf` and `nan`, whose arithmetic and comparisons follow IEEE-754
  semantics on the exact cases that arise (x/0 with x > 0 is `pinf`,
  0/0 is `nan`, comparisons with `nan` are false, finite/∞ is 0, ...).
* `rolling(...).std()` (sample standard deviation, ddof = 1) produces the
  irrational √variance; Bollinger band values are represented exactly by
  `SqVal a b r`, denoting `a + b·√r`, with decidable order against
  rationals (`qLtSq`, `sqLtQ`).
* `ewm(span=s).mean()` is pandas' default `adjust=True` weighted mean,
  computed by the numerator/denominator recursion pandas uses.
* The pandas `DataFrame` is a list of OHLC bars plus named extra columns;
  column assignment `df['c'] = s` is the upsert `setCol`.  `generate_signals`
  returns the mutated frame inside its result (`data` field), as the source
  stores the very frame it was handed.
-/

set_option maxRecDepth 100000

namespace TradingApp

/-- IEEE-style scalar value: a finite rational, +∞, -∞ or NaN.  This is the
value space of the RSI computation chain in `calculate_rsi`. -/
inductive FVq where
  | fin (q : ℚ)
  | pinf
  | ninf
  | nan
deriving DecidableEq

/-- IEEE negation. -/
def fneg : FVq → FVq
  | .fin q => .fin (-q)
  | .pinf => .ninf
  | .ninf => .pinf
  | .nan => .nan

/-- IEEE addition (NaN propagates; ∞ + -∞ is NaN). -/
def fadd : FVq → FVq → FVq
  | .nan, _ => .nan
  | _, .nan => .nan
  | .fin a, .fin b => .fin (a + b)
  | .fin _, .pinf => .pinf
  | .fin _, .ninf => .ninf
  | .pinf, .fin _ => .pinf
  | .ninf, .fin _ => .ninf
  | .pinf, .pinf => .pinf
  | .ninf, .ninf => .ninf
  | .pinf, .ninf => .nan
  | .ninf, .pinf => .nan

/-- IEEE subtraction. -/
def fsub (a b : FVq) : FVq := fadd a (fneg b)

/-- IEEE division: finite/0 is a signed infinity (the sign of a rational zero
is positive here, matching the nonnegative dividends that occur), 0/0 is NaN,
finite/∞ is 0, ∞/∞ is NaN. -/
def fdiv : FVq → FVq → FVq
  | .nan, _ => .nan
  | _, .nan => .nan
  | .fin a, .fin b =>
      if b = 0 then (if a = 0 then .nan else if 0 < a then .pinf else .ninf)
      else .fin (a / b)
  | .fin _, .pinf => .fin 0
  | .fin _, .ninf => .fin 0
  | .pinf, .fin b => if 0 ≤ b then .pinf else .ninf
  | .ninf, .fin b => if 0 ≤ b then .ninf else .pinf
  | .pinf, .pinf => .nan
  | .pinf, .ninf => .nan
  | .ninf, .pinf => .nan
  | .ninf, .ninf => .nan

/-- IEEE strict order: any comparison involving NaN is false. -/
def flt : FVq → FVq → Bool
  | .fin a, .fin b => decide (a < b)
  | .fin _, .pinf => true
  | .ninf, .fin _ => true
  | .ninf, .pinf => true
  | _, _ => false

/-- IEEE strict order, flipped. -/
def fgt (a b : FVq) : Bool := flt b a

/-- Exact representation of `base + coeff · √rad` (with `rad ≥ 0` in every
use: `rad` is a rolling sample variance).  Bollinger band values
`mean ± num_std · std` live here. -/
structure SqVal where
  base : ℚ
  coeff : ℚ
  rad : ℚ
deriving DecidableEq

/-- Decides `c < base + coeff·√rad` by sign analysis and squaring
(for `rad ≥ 0`; a nonpositive `rad` means √rad = 0). -/
def qLtSq (c : ℚ) (v : SqVal) : Bool :=
  if v.rad ≤ 0 ∨ v.coeff = 0 then decide (c < v.base)
  else if 0 < v.coeff then decide (c ≤ v.base ∨ (c - v.base)^2 < v.coeff^2 * v.rad)
  else decide (c < v.base ∧ v.coeff^2 * v.rad < (c - v.base)^2)

/-- Decides `base + coeff·√rad < c` by sign analysis and squaring
(for `rad ≥ 0`; a nonpositive `rad` means √rad = 0). -/
def sqLtQ (v : SqVal) (c : ℚ) : Bool :=
  if v.rad ≤ 0 ∨ v.coeff = 0 then decide (v.base < c)
  else if 0 < v.coeff then decide (v.base < c ∧ v.coeff^2 * v.rad < (c - v.base)^2)
  else decide (v.base ≤ c ∨ (c - v.base)^2 < v.coeff^2 * v.rad)

/-- Comparison of a rational against an optional band value; `none` is the
undefined (NaN) prefix, and comparisons with NaN are false. -/
def qLtOS (c : ℚ) : Option SqVal → Bool
  | some v => qLtSq c v
  | none => false

/-- Comparison of an optional band value against a rational; `none` is the
undefined (NaN) prefix, and comparisons with NaN are false. -/
def osLtQ : Option SqVal → ℚ → Bool
  | some v, c => sqLtQ v c
  | none, _ => false

/-! ### Rolling statistics (pandas `Series.rolling` / `Series.diff`) -/

/-- pandas `series.rolling(window=w).mean()` over IEEE-style values: NaN on
the not-yet-filled positions `i < w - 1`; at position `i ≥ w - 1` the mean of
the window `xs[i+1-w .. i]` (NaN inside a window propagates through the
fold, as pandas yields NaN for such windows). -/
def rollingMeanF (xs : List FVq) (w : Nat) : List FVq :=
  (List.range xs.length).map fun i =>
    if i + 1 < w then .nan
    else fdiv (((xs.take (i+1)).drop (i+1-w)).foldr fadd (.fin 0)) (.fin (w : ℚ))

/-- pandas `series.rolling(window=w).mean()` over plain rationals (the close
price never carries NaN); `none` on the unfilled prefix. -/
def rollingMeanQ (xs : List ℚ) (w : Nat) : List (Option ℚ) :=
  (List.range xs.length).map fun i =>
    if i + 1 < w then none
    else some ((((xs.take (i+1)).drop (i+1-w)).foldr (· + ·) 0) / (w : ℚ))

/-- Sample variance (ddof = 1, pandas default) of each filled rolling window:
the square of pandas `series.rolling(window=w).std()`.  `none` on the
unfilled prefix and for `w < 2` (zero degrees of freedom gives NaN). -/
def rollingVarQ (xs : List ℚ) (w : Nat) : List (Option ℚ) :=
  (List.range xs.length).map fun i =>
    if i + 1 < w ∨ w < 2 then none
    else
      let ws := (xs.take (i+1)).drop (i+1-w)
      let m := (ws.foldr (· + ·) 0) / (w : ℚ)
      some ((ws.foldr (fun x acc => (x - m)^2 + acc) 0) / (((w - 1 : Nat)) : ℚ))

/-- Helper for `diffQ`: successive differences against the previous value. -/
def diffGo (prev : ℚ) : List ℚ → List FVq
  | [] => []
  | x :: xs => .fin (x - prev) :: diffGo x xs

/-- pandas `prices.diff()`: NaN at position 0, `xs[i] - xs[i-1]` after. -/
def diffQ : List ℚ → List FVq
  | [] => []
  | x :: xs => .nan :: diffGo x xs

/-! ### RSI (`calculate_rsi`, `src/app.py` lines 16-23) -/

/-- `delta.where(delta > 0, 0)` of `calculate_rsi`: keep positive deltas,
else 0 (the leading NaN compares false, hence becomes 0). -/
def rsiGain (prices : List ℚ) : List FVq :=
  (diffQ prices).map fun d => if fgt d (.fin 0) then d else .fin 0

/-- `-delta.where(delta < 0, 0)` of `calculate_rsi`: keep negative deltas,
else 0, then negate the series. -/
def rsiLoss (prices : List ℚ) : List FVq :=
  ((diffQ prices).map fun d => if flt d (.fin 0) then d else .fin 0).map fneg

/-- `gain` of `calculate_rsi`: rolling mean of the positive deltas. -/
def rsiGainAvg (prices : List ℚ) (window : Nat) : List FVq :=
  rollingMeanF (rsiGain prices) window

/-- `loss` of `calculate_rsi`: rolling mean of the negated negative deltas. -/
def rsiLossAvg (prices : List ℚ) (window : Nat) : List FVq :=
  rollingMeanF (rsiLoss prices) window

/-- `rs = gain / loss` of `calculate_rsi` (elementwise IEEE division). -/
def rsiRS (prices : List ℚ) (window : Nat) : List FVq :=
  List.zipWith fdiv (rsiGainAvg prices window) (rsiLossAvg prices window)

/-- `calculate_rsi(prices, window)`: `rsi = 100 - (100 / (1 + rs))`,
elementwise over the IEEE values. -/
def calculate_rsi (prices : List ℚ) (window : Nat) : List FVq :=
  (rsiRS prices window).map fun r => fsub (.fin 100) (fdiv (.fin 100) (fadd (.fin 1) r))

/-! ### MACD (`calculate_macd`, `src/app.py` lines 25-32) -/

/-- Recursion behind pandas `ewm(span=s).mean()` with the default
`adjust=True`: running weighted numerator `x_t + (1-α)·num` and weight total
`1 + (1-α)·den`, emitting their quotient at each step. -/
def ewmGo (a : ℚ) : List ℚ → ℚ → ℚ → List ℚ
  | [], _, _ => []
  | x :: xs, num, den =>
      let num2 := x + (1 - a) * num
      let den2 := 1 + (1 - a) * den
      num2 / den2 :: ewmGo a xs num2 den2

/-- pandas `prices.ewm(span=span).mean()` (default `adjust=True`), with
smoothing factor `α = 2 / (span + 1)`. -/
def ewm_mean (xs : List ℚ) (span : Nat) : List ℚ :=
  ewmGo (2 / ((span : ℚ) + 1)) xs 0 0

/-- `calculate_macd(prices, fast, slow, signal)`: MACD line, signal line and
histogram (defaults in the source: fast=12, slow=26, signal=9). -/
def calculate_macd (prices : List ℚ) (fast slow sgn : Nat) :
    List ℚ × List ℚ × List ℚ :=
  let ema_fast := ewm_mean prices fast
  let ema_slow := ewm_mean prices slow
  let macd := List.zipWith (· - ·) ema_fast ema_slow
  let signal_line := ewm_mean macd sgn
  let histogram := List.zipWith (· - ·) macd signal_line
  (macd, signal_line, histogram)

/-! ### Bollinger Bands (`calculate_bollinger_bands`, `src/app.py` lines 34-40) -/

/-- `calculate_bollinger_bands(prices, window, num_std)`: returns
`(upper_band, rolling_mean, lower_band)` where
`upper/lower = rolling_mean ± rolling_std * num_std`; band values are exact
`mean ± num_std·√variance` elements (defaults in the source: window=20,
num_std=2). -/
def calculate_bollinger_bands (prices : List ℚ) (window : Nat) (num_std : ℚ) :
    List (Option SqVal) × List (Option ℚ) × List (Option SqVal) :=
  let rolling_mean := rollingMeanQ prices window
  let rolling_var := rollingVarQ prices window
  let upper_band := List.zipWith (fun m v =>
    match m, v with
    | some m, some v => some (SqVal.mk m num_std v)
    | _, _ => none) rolling_mean rolling_var
  let lower_band := List.zipWith (fun m v =>
    match m, v with
    | some m, some v => some (SqVal.mk m (-num_std) v)
    | _, _ => none) rolling_mean rolling_var
  (upper_band, rolling_mean, lower_band)

/-! ### DataFrame model -/

/-- One OHLC bar; `ts` is the (index) timestamp.  The engine only ever reads
`close` and the row count. -/
structure Bar where
  ts : Int
  op : ℚ
  high : ℚ
  low : ℚ
  close : ℚ
deriving DecidableEq

/-- Payload of one DataFrame column produced by the engine. -/
inductive ColData where
  | cF (xs : List FVq)
  | cQ (xs : List ℚ)
  | cS (xs : List (Option SqVal))
  | cO (xs : List (Option ℚ))
deriving DecidableEq

/-- A DataFrame: OHLC rows plus named extra columns (in insertion order,
as pandas keeps them). -/
structure DF where
  bars : List Bar
  extra : List (String × ColData)
deriving DecidableEq

/-- Column names of a frame, in pandas order: the four price columns of
`get_market_data`, then the extra columns. -/
def columns (df : DF) : List String :=
  ["open", "high", "low", "close"] ++ df.extra.map Prod.fst

/-- pandas column assignment: replace an existing column in place, or append
a new one at the end. -/
def upsert : List (String × ColData) → String → ColData → List (String × ColData)
  | [], n, c => [(n, c)]
  | (k, v) :: t, n, c => if k = n then (n, c) :: t else (k, v) :: upsert t n c

/-- `df[n] = c`: the frame with column `n` set. -/
def setCol (df : DF) (n : String) (c : ColData) : DF :=
  DF.mk df.bars (upsert df.extra n c)

/-- The close-price series of a frame. -/
def closeSeries (df : DF) : List ℚ := df.bars.map Bar.close

/-- `series.iloc[-1]` (with a default for the empty series, which the gated
engine never hits). -/
def ilast (xs : List α) (d : α) : α := xs.getLast?.getD d

/-- `series.iloc[-2]` (with a default, as for `ilast`). -/
def iprev (xs : List α) (d : α) : α := xs.dropLast.getLast?.getD d

/-! ### Indicator bundle columns written by `generate_signals` (lines 103-108) -/

/-- `df['rsi']`. -/
def rsiSeries (df : DF) : List FVq := calculate_rsi (closeSeries df) 14

/-- `df['macd']`. -/
def macdSeries (df : DF) : List ℚ := (calculate_macd (closeSeries df) 12 26 9).1

/-- `df['macd_signal']`. -/
def macdSignalSeries (df : DF) : List ℚ := (calculate_macd (closeSeries df) 12 26 9).2.1

/-- `df['macd_hist']`. -/
def macdHistSeries (df : DF) : List ℚ := (calculate_macd (closeSeries df) 12 26 9).2.2

/-- `df['bb_upper']`. -/
def bbUpperSeries (df : DF) : List (Option SqVal) :=
  (calculate_bollinger_bands (closeSeries df) 20 2).1

/-- `df['bb_middle']`. -/
def bbMiddleSeries (df : DF) : List (Option ℚ) :=
  (calculate_bollinger_bands (closeSeries df) 20 2).2.1

/-- `df['bb_lower']`. -/
def bbLowerSeries (df : DF) : List (Option SqVal) :=
  (calculate_bollinger_bands (closeSeries df) 20 2).2.2

/-- `df['sma_20']`. -/
def sma20Series (df : DF) : List (Option ℚ) := rollingMeanQ (closeSeries df) 20

/-- `df['sma_50']`. -/
def sma50Series (df : DF) : List (Option ℚ) := rollingMeanQ (closeSeries df) 50

/-- The nine column assignments of `generate_signals` (lines 104-108), in
source order.  Each series is a function of the close column only, which the
assignments never touch, so computing them up front is faithful to the
sequential mutation in the source. -/
def withIndicators (df : DF) : DF :=
  setCol (setCol (setCol (setCol (setCol (setCol (setCol (setCol (setCol
    df "rsi" (.cF (rsiSeries df)))
    "macd" (.cQ (macdSeries df)))
    "macd_signal" (.cQ (macdSignalSeries df)))
    "macd_hist" (.cQ (macdHistSeries df)))
    "bb_upper" (.cS (bbUpperSeries df)))
    "bb_middle" (.cO (bbMiddleSeries df)))
    "bb_lower" (.cS (bbLowerSeries df)))
    "sma_20" (.cO (sma20Series df)))
    "sma_50" (.cO (sma50Series df))

/-! ### Signal rules (`generate_signals`, lines 110-130) -/

/-- One emitted signal: the tuple `(indicator, direction, reason, strength)`
appended to `signals` in the source. -/
structure Sig where
  indicator : String
  direction : String
  reason : String
  strength : ℚ
deriving DecidableEq

/-- RSI rule (lines 113-117): BUY below 30, SELL above 70; the comparisons
are IEEE, so a NaN latest RSI fires nothing. -/
def rsi_rule (rsiLast : FVq) : List Sig :=
  if flt rsiLast (.fin 30) then [Sig.mk "RSI" "BUY" "Oversold" 0.7]
  else if fgt rsiLast (.fin 70) then [Sig.mk "RSI" "SELL" "Overbought" 0.7]
  else []

/-- MACD crossover rule (lines 119-124), guarded by `len(df) > 1`. -/
def macd_rule (nbars : Nat) (macdLast sigLast macdPrev sigPrev : ℚ) : List Sig :=
  if 1 < nbars then
    if macdLast > sigLast ∧ macdPrev ≤ sigPrev then
      [Sig.mk "MACD" "BUY" "Bullish Crossover" 0.8]
    else if macdLast < sigLast ∧ macdPrev ≥ sigPrev then
      [Sig.mk "MACD" "SELL" "Bearish Crossover" 0.8]
    else []
  else []

/-- Bollinger rule (lines 126-130): close below the lower band fires BUY,
close above the upper band fires SELL; an undefined band compares false. -/
def bb_rule (closeLast : ℚ) (lowerLast upperLast : Option SqVal) : List Sig :=
  if qLtOS closeLast lowerLast then [Sig.mk "BB" "BUY" "Below Lower Band" 0.6]
  else if osLtQ upperLast closeLast then [Sig.mk "BB" "SELL" "Above Upper Band" 0.6]
  else []

/-- The `signals` list of one run: the three rules applied to the latest
(and for MACD second-latest) indicator values, appended in source order. -/
def signalsOf (df : DF) : List Sig :=
  rsi_rule (ilast (rsiSeries df) .nan)
  ++ macd_rule df.bars.length (ilast (macdSeries df) 0) (ilast (macdSignalSeries df) 0)
      (iprev (macdSeries df) 0) (iprev (macdSignalSeries df) 0)
  ++ bb_rule (ilast (closeSeries df) 0) (ilast (bbLowerSeries df) none)
      (ilast (bbUpperSeries df) none)

/-! ### Aggregation (`generate_signals`, lines 132-143) -/

/-- Signal aggregation: partition into BUY/SELL, average the strengths
(0 for an empty side), and derive the overall verdict.  Returns
`(overall_signal, buy_strength, sell_strength)`. -/
def aggregate (signals : List Sig) : String × ℚ × ℚ :=
  let buy_signals := signals.filter fun s => s.direction == "BUY"
  let sell_signals := signals.filter fun s => s.direction == "SELL"
  let buy_strength := if buy_signals.isEmpty then 0
    else (buy_signals.map Sig.strength).sum / (buy_signals.length : ℚ)
  let sell_strength := if sell_signals.isEmpty then 0
    else (sell_signals.map Sig.strength).sum / (sell_signals.length : ℚ)
  let overall := if buy_strength > sell_strength ∧ buy_strength > 0.6 then "BUY"
    else if sell_strength > buy_strength ∧ sell_strength > 0.6 then "SELL"
    else "NEUTRAL"
  (overall, buy_strength, sell_strength)

/-- The dictionary returned by `generate_signals`; `data` is the (mutated)
frame the run operated on. -/
structure SignalResult where
  signals : List Sig
  overall : String
  buy_strength : ℚ
  sell_strength : ℚ
  data : DF
deriving DecidableEq

/-- `generate_signals(df)` (lines 98-151): `None` for a `None` frame or
fewer than 20 bars; otherwise the indicator columns are written into the
frame, the three rules run, and the aggregated verdict is returned. -/
def generate_signals (dfOpt : Option DF) : Option SignalResult :=
  match dfOpt with
  | none => none
  | some df =>
    if df.bars.length < 20 then none
    else
      some (SignalResult.mk (signalsOf df) (aggregate (signalsOf df)).1
        (aggregate (signalsOf df)).2.1 (aggregate (signalsOf df)).2.2
        (withIndicators df))

/-- The signal list of a run, `[]` when the run returned no result. -/
def runSignals (df : DF) : List Sig :=
  (generate_signals (some df)).elim [] SignalResult.signals

/-! ### Spec-side definitions (used only on the specification side of the
claims, phrased after the spec's own words) -/

/-- The spec's aggregation formula: the arithmetic mean of the strengths,
0 for an empty signal set. -/
def specMean (l : List Sig) : ℚ :=
  if l.isEmpty then 0 else (l.map Sig.strength).sum / (l.length : ℚ)

/-- Exponentially weighted sum `ys[0] + (1-a)·ys[1] + (1-a)²·ys[2] + ...`
(most recent value first), the numerator of pandas' `adjust=True` mean. -/
def expWeightedSum (a : ℚ) : List ℚ → ℚ
  | [] => 0
  | y :: ys => y + (1 - a) * expWeightedSum a ys

/-- Weight total `1 + (1-a) + ... + (1-a)^(n-1)`, the denominator of pandas'
`adjust=True` mean over `n` observations. -/
def weightSum (a : ℚ) : Nat → ℚ
  | 0 => 0
  | n + 1 => 1 + (1 - a) * weightSum a n

/-- The spec's input invariant "timestamps strictly increasing". -/
def tsStrictMono (bs : List Bar) : Prop := List.Chain' (· < ·) (bs.map Bar.ts)

/-! ### Concrete fixtures for witnesses and counterexamples -/

/-- A bar whose four prices all equal `c`. -/
def mkBar (t : Int) (c : ℚ) : Bar := Bar.mk t c c c c

/-- Twenty well-formed constant-price bars. -/
def exDF : DF := DF.mk ((List.range 20).map fun i => mkBar i 100) []

/-- Nineteen well-formed bars: one short of the gate. -/
def exDF19 : DF := DF.mk ((List.range 19).map fun i => mkBar i 100) []

/-- Twenty malformed bars: constant timestamp 0 (not increasing) and a
negative price. -/
def exBadDF : DF := DF.mk ((List.range 20).map fun _ => mkBar 0 (-5)) []

/-- The result of the engine on `exDF` (the run exists; the fallback arm is
never taken). -/
def exRes : SignalResult :=
  match generate_signals (some exDF) with
  | some r => r
  | none => SignalResult.mk [] "" 0 0 exDF

/-- Fifteen strictly increasing close prices 1, 2, ..., 15: enough history
for the RSI window, with every delta positive (zero average loss). -/
def upPrices : List ℚ := (List.range 15).map fun i => (i : ℚ) + 1

/-- A frame with the strictly increasing closes `upPrices`. -/
def upDF : DF := DF.mk ((List.range 15).map fun i => mkBar i ((i : ℚ) + 1)) []

/-- A frame with the same bars as `exDF` but a further (ignored) column, so
the two frames differ while agreeing on every indicator series. -/
def exDFx : DF := DF.mk ((List.range 20).map fun i => mkBar i 100) [("note", ColData.cQ [])]

/-- The engine's result on `exDFx`. -/
def exResX : SignalResult :=
  match generate_signals (some exDFx) with
  | some r => r
  | none => SignalResult.mk [] "" 0 0 exDFx

/-- The negation of C1's tie-break scenario: no run of the engine carries
both a BUY signal of strength 0.7 and a SELL signal of strength 0.7. -/
def noTiedRun : Prop :=
  ∀ df : DF,
    ¬ ((∃ s ∈ runSignals df, s.direction = "BUY" ∧ s.strength = 0.7) ∧
       (∃ s ∈ runSignals df, s.direction = "SELL" ∧ s.strength = 0.7))

/-! ### General lemmas about the engine -/

/-- Inversion for a successful run: the gate passed and the result is the
record built from `signalsOf`, `aggregate` and `withIndicators`. -/
lemma generate_signals_eq_some {df : DF} {r : SignalResult}
    (h : generate_signals (some df) = some r) :
    20 ≤ df.bars.length ∧
    r = SignalResult.mk (signalsOf df) (aggregate (signalsOf df)).1
      (aggregate (signalsOf df)).2.1 (aggregate (signalsOf df)).2.2
      (withIndicators df) := by
  by_cases hl : df.bars.length < 20
  · simp [generate_signals, hl] at h
  · refine ⟨Nat.le_of_not_lt hl, ?_⟩
    simp only [generate_signals, if_neg hl, Option.some.injEq] at h
    exact h.symm

/-- C2: an absent frame or any input of fewer than 20 bars (the empty input
included) yields the defined "no result" outcome `none`, and any input of at
least 20 bars yields a non-null result; in particular 19 bars give no result
and 20 bars give a verdict. -/
theorem C2_gate :
    generate_signals none = none ∧
    (∀ df : DF, df.bars.length < 20 → generate_signals (some df) = none) ∧
    (∀ df : DF, 20 ≤ df.bars.length → (generate_signals (some df)).isSome = true) := by
  refine ⟨rfl, fun df h => by simp [generate_signals, h], fun df h => ?_⟩
  simp [generate_signals, Nat.not_lt.mpr h]

/-- Witness for `C2_gate`: a concrete 19-bar input returns no result and a
concrete 20-bar input returns a non-null verdict. -/
theorem C2_gate_witness :
    exDF19.bars.length = 19 ∧ generate_signals (some exDF19) = none ∧
    exDF.bars.length = 20 ∧ (generate_signals (some exDF)).isSome = true :=
  ⟨by decide, C2_gate.2.1 exDF19 (by decide),
   by decide, C2_gate.2.2 exDF (by decide)⟩

/-- C8 (amended): the engine performs no input validation.  A malformed
input (a non-positive price, or non-increasing timestamps) with at least 20
bars is processed like any other: a normal result is produced (no validation
failure is surfaced) and the malformed bars are passed through unrepaired
and undropped into the result's frame. -/
theorem C8_no_validation : ∀ df : DF, 20 ≤ df.bars.length →
    ((∃ b ∈ df.bars, b.close ≤ 0) ∨ ¬ tsStrictMono df.bars) →
    ∃ r, generate_signals (some df) = some r ∧ r.data.bars = df.bars := by
  intro df h _
  have hl : ¬ df.bars.length < 20 := Nat.not_lt.mpr h
  exact ⟨SignalResult.mk (signalsOf df) (aggregate (signalsOf df)).1
      (aggregate (signalsOf df)).2.1 (aggregate (signalsOf df)).2.2 (withIndicators df),
    by simp [generate_signals, hl], rfl⟩

/-- Witness for `C8_no_validation`: twenty bars with constant timestamp 0
and price -5 are malformed, yet the engine returns a result that still
carries them. -/
theorem C8_no_validation_witness :
    20 ≤ exBadDF.bars.length ∧
    ((∃ b ∈ exBadDF.bars, b.close ≤ 0) ∨ ¬ tsStrictMono exBadDF.bars) ∧
    ∃ r, generate_signals (some exBadDF) = some r ∧ r.data.bars = exBadDF.bars :=
  ⟨by decide, Or.inl (by with_unfolding_all decide),
   C8_no_validation exBadDF (by decide) (Or.inl (by with_unfolding_all decide))⟩

/-- Counterexample to C8 as stated: on a concrete input whose timestamps are
non-increasing and whose prices are negative, the engine surfaces no
validation failure; it returns an ordinary NEUTRAL verdict (the only
outcomes of `generate_signals` are `none` and a verdict — there is no
validation-failure outcome in the code) and hands the malformed bars back
unchanged. -/
theorem C8_counterexample :
    (generate_signals (some exBadDF)).map SignalResult.overall = some "NEUTRAL" ∧
    (generate_signals (some exBadDF)).map (fun r => r.data.bars) = some exBadDF.bars := by
  with_unfolding_all decide

/-- C9 (amended): a run leaves the OHLC bar values unchanged, but it does
write indicator data into the frame it was given: for an OHLC-only input the
returned `data` frame (the caller's frame, mutated in the source) carries
the four price columns plus the nine indicator columns, in this order. -/
theorem C9_mutates_frame : ∀ (df : DF) (r : SignalResult), df.extra = [] →
    generate_signals (some df) = some r →
    r.data.bars = df.bars ∧
    columns r.data = columns df ++ ["rsi", "macd", "macd_signal", "macd_hist",
      "bb_upper", "bb_middle", "bb_lower", "sma_20", "sma_50"] := by
  intro df r hx h
  obtain ⟨-, hr⟩ := generate_signals_eq_some h
  subst hr
  obtain ⟨bars, extra⟩ := df
  cases hx
  exact ⟨rfl, rfl⟩

/-- Witness for `C9_mutates_frame` at the concrete 20-bar input `exDF`. -/
theorem C9_mutates_frame_witness :
    exRes.data.bars = exDF.bars ∧
    columns exRes.data = columns exDF ++ ["rsi", "macd", "macd_signal", "macd_hist",
      "bb_upper", "bb_middle", "bb_lower", "sma_20", "sma_50"] :=
  C9_mutates_frame exDF exRes rfl (by with_unfolding_all decide)

/-- Counterexample to C9 as stated: after a run on the concrete input
`exDF`, the column set of the frame held by the result differs from the
column set of the input — the engine wrote indicator columns into it. -/
theorem C9_counterexample :
    (generate_signals (some exDF)).map (fun r => columns r.data) ≠ some (columns exDF) := by
  with_unfolding_all decide



/-! ### Lemmas about the three rules -/

lemma rsi_rule_cases (v : FVq) :
    rsi_rule v = [] ∨ rsi_rule v = [Sig.mk "RSI" "BUY" "Oversold" 0.7] ∨
    rsi_rule v = [Sig.mk "RSI" "SELL" "Overbought" 0.7] := by
  unfold rsi_rule; split_ifs <;> simp

lemma rsi_rule_indicator {v : FVq} {s : Sig} (h : s ∈ rsi_rule v) :
    s.indicator = "RSI" := by
  unfold rsi_rule at h
  split_ifs at h <;> simp_all

lemma macd_rule_mem {n : Nat} {a b c d : ℚ} {s : Sig} (h : s ∈ macd_rule n a b c d) :
    s = Sig.mk "MACD" "BUY" "Bullish Crossover" 0.8 ∨
    s = Sig.mk "MACD" "SELL" "Bearish Crossover" 0.8 := by
  unfold macd_rule at h
  split_ifs at h <;> simp_all

lemma bb_rule_mem {c : ℚ} {lo up : Option SqVal} {s : Sig} (h : s ∈ bb_rule c lo up) :
    s = Sig.mk "BB" "BUY" "Below Lower Band" 0.6 ∨
    s = Sig.mk "BB" "SELL" "Above Upper Band" 0.6 := by
  unfold bb_rule at h
  split_ifs at h <;> simp_all

lemma not_mem_rsi_rule {v : FVq} {s : Sig} (h : s.indicator ≠ "RSI") : s ∉ rsi_rule v :=
  fun hm => h (rsi_rule_indicator hm)

lemma macd_rule_indicator {n : Nat} {a b c d : ℚ} {s : Sig}
    (h : s ∈ macd_rule n a b c d) : s.indicator = "MACD" := by
  rcases macd_rule_mem h with h | h <;> subst h <;> rfl

lemma bb_rule_indicator {c : ℚ} {lo up : Option SqVal} {s : Sig}
    (h : s ∈ bb_rule c lo up) : s.indicator = "BB" := by
  rcases bb_rule_mem h with h | h <;> subst h <;> rfl

lemma not_mem_macd_rule {n : Nat} {a b c d : ℚ} {s : Sig} (h : s.indicator ≠ "MACD") :
    s ∉ macd_rule n a b c d :=
  fun hm => h (macd_rule_indicator hm)

lemma not_mem_bb_rule {c : ℚ} {lo up : Option SqVal} {s : Sig} (h : s.indicator ≠ "BB") :
    s ∉ bb_rule c lo up :=
  fun hm => h (bb_rule_indicator hm)

/-! ### The aggregation characterization -/

lemma verdict_iff (b s : ℚ) :
    (((if b > s ∧ b > 0.6 then "BUY" else if s > b ∧ s > 0.6 then "SELL"
        else "NEUTRAL") : String) = "BUY" ↔ (b > s ∧ b > 0.6)) ∧
    (((if b > s ∧ b > 0.6 then "BUY" else if s > b ∧ s > 0.6 then "SELL"
        else "NEUTRAL") : String) = "SELL" ↔ (s > b ∧ s > 0.6)) ∧
    (((if b > s ∧ b > 0.6 then "BUY" else if s > b ∧ s > 0.6 then "SELL"
        else "NEUTRAL") : String) = "NEUTRAL" ↔
      (¬(b > s ∧ b > 0.6) ∧ ¬(s > b ∧ s > 0.6))) := by
  split_ifs with h1 h2
  · have hx : ¬ (s > b ∧ s > 0.6) := fun hc => lt_asymm h1.1 hc.1
    refine ⟨by simp [h1], by simp [hx], by simp [h1]⟩
  · have hy : ¬ (b > s ∧ b > 0.6) := h1
    refine ⟨by simp [h1], by simp [h2], by simp [h2]⟩
  · refine ⟨by simp [h1], by simp [h2], by simp [h1, h2]⟩

lemma aggregate_spec (sigs : List Sig) :
    (aggregate sigs).2.1 = specMean (sigs.filter fun s => s.direction == "BUY") ∧
    (aggregate sigs).2.2 = specMean (sigs.filter fun s => s.direction == "SELL") ∧
    ((aggregate sigs).1 = "BUY" ↔
      ((aggregate sigs).2.1 > (aggregate sigs).2.2 ∧ (aggregate sigs).2.1 > 0.6)) ∧
    ((aggregate sigs).1 = "SELL" ↔
      ((aggregate sigs).2.2 > (aggregate sigs).2.1 ∧ (aggregate sigs).2.2 > 0.6)) ∧
    ((aggregate sigs).1 = "NEUTRAL" ↔
      (¬((aggregate sigs).2.1 > (aggregate sigs).2.2 ∧ (aggregate sigs).2.1 > 0.6) ∧
       ¬((aggregate sigs).2.2 > (aggregate sigs).2.1 ∧ (aggregate sigs).2.2 > 0.6))) :=
  ⟨rfl, rfl, (verdict_iff _ _).1, (verdict_iff _ _).2.1, (verdict_iff _ _).2.2⟩

/-- Membership of a MACD-labelled signal in a run's list is membership in
the MACD rule's output: the other two rules label their signals RSI / BB. -/
lemma mem_signalsOf_macd {df : DF} {s : Sig} (hind : s.indicator = "MACD") :
    s ∈ signalsOf df ↔ s ∈ macd_rule df.bars.length (ilast (macdSeries df) 0)
      (ilast (macdSignalSeries df) 0) (iprev (macdSeries df) 0)
      (iprev (macdSignalSeries df) 0) := by
  unfold signalsOf
  simp only [List.mem_append]
  constructor
  · rintro ((h | h) | h)
    · exact absurd (rsi_rule_indicator h) (by rw [hind]; decide)
    · exact h
    · exact absurd (bb_rule_indicator h) (by rw [hind]; decide)
  · exact fun h => Or.inl (Or.inr h)

/-- Exact firing condition of the MACD rule once the two-bar guard holds. -/
lemma macd_rule_iff {n : Nat} (hn : 1 < n) (a b c d : ℚ) :
    (Sig.mk "MACD" "BUY" "Bullish Crossover" 0.8 ∈ macd_rule n a b c d ↔ (a > b ∧ c ≤ d)) ∧
    (Sig.mk "MACD" "SELL" "Bearish Crossover" 0.8 ∈ macd_rule n a b c d ↔ (a < b ∧ c ≥ d)) := by
  unfold macd_rule
  rw [if_pos hn]
  split_ifs with h1 h2
  · exact ⟨iff_of_true (List.mem_singleton_self _) h1,
      iff_of_false (by rw [List.mem_singleton]; with_unfolding_all decide)
        (fun hc => lt_asymm h1.1 hc.1)⟩
  · exact ⟨iff_of_false (by rw [List.mem_singleton]; with_unfolding_all decide) h1,
      iff_of_true (List.mem_singleton_self _) h2⟩
  · exact ⟨iff_of_false (List.not_mem_nil _) h1, iff_of_false (List.not_mem_nil _) h2⟩

/-- C1 (amended): for every run, `buy_strength` is the arithmetic mean of
the fired BUY strengths (0 when none fired), `sell_strength` the analogous
mean over SELL signals, and the verdict is BUY iff
`buy_strength > sell_strength` and `buy_strength > 0.6`, SELL under the
symmetric condition, NEUTRAL otherwise; and the aggregation applied to one
BUY signal of strength 0.7 and one SELL signal of strength 0.7 gives
`buy_strength = sell_strength = 0.7` and verdict NEUTRAL.  (The tie-break
scenario holds of the aggregation function: no actual run produces that
signal pair, see `C1_counterexample`.) -/
theorem C1_aggregation :
    (∀ (df : DF) (r : SignalResult), generate_signals (some df) = some r →
      r.buy_strength = specMean (r.signals.filter fun s => s.direction == "BUY") ∧
      r.sell_strength = specMean (r.signals.filter fun s => s.direction == "SELL") ∧
      (r.overall = "BUY" ↔ (r.buy_strength > r.sell_strength ∧ r.buy_strength > 0.6)) ∧
      (r.overall = "SELL" ↔ (r.sell_strength > r.buy_strength ∧ r.sell_strength > 0.6)) ∧
      (r.overall = "NEUTRAL" ↔
        (¬(r.buy_strength > r.sell_strength ∧ r.buy_strength > 0.6) ∧
         ¬(r.sell_strength > r.buy_strength ∧ r.sell_strength > 0.6)))) ∧
    aggregate [Sig.mk "RSI" "BUY" "Oversold" 0.7, Sig.mk "RSI" "SELL" "Overbought" 0.7]
      = ("NEUTRAL", 0.7, 0.7) := by
  constructor
  · intro df r h
    obtain ⟨-, hr⟩ := generate_signals_eq_some h
    subst hr
    exact aggregate_spec (signalsOf df)
  · with_unfolding_all decide

/-- Witness for `C1_aggregation` at the concrete run on `exDF`. -/
theorem C1_aggregation_witness :
    aggregate [Sig.mk "RSI" "BUY" "Oversold" 0.7, Sig.mk "RSI" "SELL" "Overbought" 0.7]
      = ("NEUTRAL", 0.7, 0.7) ∧
    exRes.buy_strength = specMean (exRes.signals.filter fun s => s.direction == "BUY") :=
  ⟨C1_aggregation.2, (C1_aggregation.1 exDF exRes (by with_unfolding_all decide)).1⟩

/-- Counterexample to C1 as stated: no run of the engine carries both a
BUY signal of strength 0.7 and a SELL signal of strength 0.7 — the RSI rule
is the only one with strength 0.7 and it fires at most one signal — so the
claim's tie-break scenario ("for some run with exactly one BUY signal of
strength 0.7 and one SELL signal of strength 0.7") is unreachable: this
proves the negation of that existential part of the claim. -/
theorem C1_counterexample : noTiedRun := by
  intro df h
  obtain ⟨⟨s1, hm1, hd1, hq1⟩, ⟨s2, hm2, hd2, hq2⟩⟩ := h
  cases hgen : generate_signals (some df) with
  | none => simp [runSignals, hgen] at hm1
  | some r =>
    simp only [runSignals, hgen, Option.elim] at hm1 hm2
    obtain ⟨-, hr⟩ := generate_signals_eq_some hgen
    subst hr
    have key : ∀ s : Sig, s ∈ signalsOf df → s.strength = 0.7 →
        s ∈ rsi_rule (ilast (rsiSeries df) FVq.nan) := by
      intro s hs hq
      rcases List.mem_append.mp hs with hs | hs
      · rcases List.mem_append.mp hs with hs | hs
        · exact hs
        · rcases macd_rule_mem hs with h | h <;> subst h <;>
            exact absurd hq (by with_unfolding_all decide)
      · rcases bb_rule_mem hs with h | h <;> subst h <;>
          exact absurd hq (by with_unfolding_all decide)
    have h1 := key s1 hm1 hq1
    have h2 := key s2 hm2 hq2
    rcases rsi_rule_cases (ilast (rsiSeries df) FVq.nan) with hc | hc | hc <;> rw [hc] at h1 h2
    · simp at h1
    · rw [List.mem_singleton] at h2; subst h2; exact absurd hd2 (by decide)
    · rw [List.mem_singleton] at h1; subst h1; exact absurd hd1 (by decide)

/-- C3: in every run (the engine only runs with ≥ 20 ≥ 2 bars), the MACD
rule's BUY signal ("Bullish Crossover", strength 0.8) is in the signal list
exactly when the latest macd exceeds the latest macd_signal while the
second-latest macd was ≤ the second-latest macd_signal; the SELL signal
("Bearish Crossover", 0.8) appears under the symmetric condition; and no
other MACD-labelled signal ever appears. -/
theorem C3_macd_crossover : ∀ (df : DF) (r : SignalResult),
    generate_signals (some df) = some r →
    ((Sig.mk "MACD" "BUY" "Bullish Crossover" 0.8 ∈ r.signals) ↔
      (ilast (macdSeries df) 0 > ilast (macdSignalSeries df) 0 ∧
       iprev (macdSeries df) 0 ≤ iprev (macdSignalSeries df) 0)) ∧
    ((Sig.mk "MACD" "SELL" "Bearish Crossover" 0.8 ∈ r.signals) ↔
      (ilast (macdSeries df) 0 < ilast (macdSignalSeries df) 0 ∧
       iprev (macdSeries df) 0 ≥ iprev (macdSignalSeries df) 0)) ∧
    (∀ s ∈ r.signals, s.indicator = "MACD" →
      s = Sig.mk "MACD" "BUY" "Bullish Crossover" 0.8 ∨
      s = Sig.mk "MACD" "SELL" "Bearish Crossover" 0.8) := by
  intro df r h
  obtain ⟨hlen, hr⟩ := generate_signals_eq_some h
  subst hr
  have hn : 1 < df.bars.length := by omega
  have hb := macd_rule_iff hn (ilast (macdSeries df) 0) (ilast (macdSignalSeries df) 0)
    (iprev (macdSeries df) 0) (iprev (macdSignalSeries df) 0)
  exact ⟨(mem_signalsOf_macd rfl).trans hb.1, (mem_signalsOf_macd rfl).trans hb.2,
    fun s hs hind => macd_rule_mem ((mem_signalsOf_macd hind).mp hs)⟩

/-- Witness for `C3_macd_crossover` at the concrete run on `exDF` (where
neither crossover condition holds and no MACD signal fires). -/
theorem C3_macd_crossover_witness :
    ((Sig.mk "MACD" "BUY" "Bullish Crossover" 0.8 ∈ exRes.signals) ↔
      (ilast (macdSeries exDF) 0 > ilast (macdSignalSeries exDF) 0 ∧
       iprev (macdSeries exDF) 0 ≤ iprev (macdSignalSeries exDF) 0)) ∧
    ((Sig.mk "MACD" "SELL" "Bearish Crossover" 0.8 ∈ exRes.signals) ↔
      (ilast (macdSeries exDF) 0 < ilast (macdSignalSeries exDF) 0 ∧
       iprev (macdSeries exDF) 0 ≥ iprev (macdSignalSeries exDF) 0)) :=
  ⟨(C3_macd_crossover exDF exRes (by with_unfolding_all decide)).1,
   (C3_macd_crossover exDF exRes (by with_unfolding_all decide)).2.1⟩

/-- C7: each rule emits at most one signal; a rule whose inputs are
undefined emits nothing (NaN latest RSI, fewer than two bars for MACD,
undefined bands for Bollinger); and in every run the signal list is exactly
the concatenation of the three rules' outputs — an undefined value never
fires a rule, is never treated as zero, and never aborts the other rules or
the run (in particular a NaN latest RSI only removes RSI signals). -/
theorem C7_rule_isolation :
    (∀ v, (rsi_rule v).length ≤ 1) ∧
    rsi_rule FVq.nan = [] ∧
    (∀ n (a b c d : ℚ), (macd_rule n a b c d).length ≤ 1) ∧
    (∀ n (a b c d : ℚ), n ≤ 1 → macd_rule n a b c d = []) ∧
    (∀ (c : ℚ) lo up, (bb_rule c lo up).length ≤ 1) ∧
    (∀ c : ℚ, bb_rule c none none = []) ∧
    (∀ (df : DF) (r : SignalResult), generate_signals (some df) = some r →
      r.signals = rsi_rule (ilast (rsiSeries df) FVq.nan)
        ++ macd_rule df.bars.length (ilast (macdSeries df) 0) (ilast (macdSignalSeries df) 0)
            (iprev (macdSeries df) 0) (iprev (macdSignalSeries df) 0)
        ++ bb_rule (ilast (closeSeries df) 0) (ilast (bbLowerSeries df) none)
            (ilast (bbUpperSeries df) none) ∧
      (ilast (rsiSeries df) FVq.nan = FVq.nan → ∀ s ∈ r.signals, s.indicator ≠ "RSI")) := by
  refine ⟨?_, rfl, ?_, ?_, ?_, ?_, ?_⟩
  · intro v; unfold rsi_rule; split_ifs <;> simp
  · intro n a b c d; unfold macd_rule; split_ifs <;> simp
  · intro n a b c d hn; unfold macd_rule; rw [if_neg (by omega)]
  · intro c lo up; unfold bb_rule; split_ifs <;> simp
  · intro c; rfl
  · intro df r h
    obtain ⟨-, hr⟩ := generate_signals_eq_some h
    subst hr
    refine ⟨rfl, ?_⟩
    intro hnan s hs hind
    have hmem : s ∈ signalsOf df := hs
    unfold signalsOf at hmem
    rw [hnan] at hmem
    rcases List.mem_append.mp hmem with hx | hx
    · rcases List.mem_append.mp hx with hy | hy
      · rw [show rsi_rule FVq.nan = ([] : List Sig) from rfl] at hy
        exact absurd hy (List.not_mem_nil s)
      · have := macd_rule_indicator hy
        rw [hind] at this
        exact absurd this (by decide)
    · have := bb_rule_indicator hx
      rw [hind] at this
      exact absurd this (by decide)

/-- Witness for `C7_rule_isolation`: the guard case `n = 1` and the
concrete run on `exDF`, whose constant prices make the latest RSI NaN — the
run still succeeds with the other rules evaluated. -/
theorem C7_rule_isolation_witness :
    macd_rule 1 0 0 0 0 = [] ∧
    exRes.signals = rsi_rule (ilast (rsiSeries exDF) FVq.nan)
      ++ macd_rule exDF.bars.length (ilast (macdSeries exDF) 0) (ilast (macdSignalSeries exDF) 0)
          (iprev (macdSeries exDF) 0) (iprev (macdSignalSeries exDF) 0)
      ++ bb_rule (ilast (closeSeries exDF) 0) (ilast (bbLowerSeries exDF) none)
          (ilast (bbUpperSeries exDF) none) :=
  ⟨C7_rule_isolation.2.2.2.1 1 0 0 0 0 (by decide),
   (C7_rule_isolation.2.2.2.2.2.2 exDF exRes (by with_unfolding_all decide)).1⟩

/-! ### The adjusted exponential mean -/

lemma expWeightedSum_append (a x : ℚ) : ∀ ys : List ℚ,
    expWeightedSum a (ys ++ [x]) = expWeightedSum a ys + (1 - a) ^ ys.length * x := by
  intro ys
  induction ys with
  | nil => simp [expWeightedSum]
  | cons y t ih =>
    rw [List.cons_append,
      show expWeightedSum a (y :: (t ++ [x])) = y + (1 - a) * expWeightedSum a (t ++ [x]) from rfl,
      ih, show expWeightedSum a (y :: t) = y + (1 - a) * expWeightedSum a t from rfl,
      List.length_cons]
    ring

lemma weightSum_succ (a : ℚ) : ∀ n : Nat, weightSum a (n + 1) = weightSum a n + (1 - a) ^ n := by
  intro n
  induction n with
  | zero => simp [weightSum]
  | succ n ih =>
    conv_lhs => rw [show weightSum a (n + 1 + 1) = 1 + (1 - a) * weightSum a (n + 1) from rfl, ih]
    conv_rhs => rw [show weightSum a (n + 1) = 1 + (1 - a) * weightSum a n from rfl]
    ring

lemma ewmGo_length (a : ℚ) : ∀ (xs : List ℚ) (num den : ℚ),
    (ewmGo a xs num den).length = xs.length := by
  intro xs
  induction xs with
  | nil => intro num den; rfl
  | cons x t ih => intro num den; simp [ewmGo, ih]

lemma ewmGo_get? (a : ℚ) : ∀ (xs : List ℚ) (num den : ℚ) (i : Nat), i < xs.length →
    (ewmGo a xs num den).get? i =
      some ((expWeightedSum a ((xs.take (i+1)).reverse) + (1-a)^(i+1) * num) /
            (weightSum a (i+1) + (1-a)^(i+1) * den)) := by
  intro xs
  induction xs with
  | nil => intro num den i h; simp at h
  | cons x t ih =>
    intro num den i h
    cases i with
    | zero =>
      rw [show (ewmGo a (x :: t) num den).get? 0 =
        some ((x + (1-a)*num)/(1 + (1-a)*den)) from rfl]
      rw [show ((x :: t).take 1).reverse = [x] from by simp]
      rw [show expWeightedSum a [x] = x + (1-a)*0 from rfl,
        show weightSum a 1 = 1 + (1-a)*0 from rfl]
      congr 1
      all_goals ring
    | succ i =>
      have hi : i < t.length := by simpa using h
      have hstep : (ewmGo a (x :: t) num den).get? (i+1) =
          (ewmGo a t (x + (1-a)*num) (1 + (1-a)*den)).get? i := rfl
      rw [hstep, ih (x + (1-a)*num) (1 + (1-a)*den) i hi]
      have hlen : ((t.take (i+1)).reverse).length = i + 1 := by
        simp only [List.length_reverse, List.length_take]
        omega
      conv_rhs => rw [List.take_succ_cons, List.reverse_cons, expWeightedSum_append, hlen,
        weightSum_succ]
      congr 1
      congr 1
      all_goals ring

/-- C4 (amended): the exponential moving average used by the MACD
computation is pandas' default `adjust=True` exponentially weighted mean:
it is defined at every index (same length as the input, no undefined
prefix), satisfies `ema[0] = series[0]`, and at every index equals
`Σ_j (1-α)^j·series[i-j] / Σ_j (1-α)^j` (j = 0..i) with `α = 2/(span+1)` —
not the plain recurrence `ema[i] = α·series[i] + (1-α)·ema[i-1]`, which it
violates from index 1 on (see `C4_counterexample`). -/
theorem C4_adjusted_ema : ∀ (xs : List ℚ) (span : Nat),
    (ewm_mean xs span).length = xs.length ∧
    (∀ (x : ℚ) (t : List ℚ), xs = x :: t → (ewm_mean xs span).get? 0 = some x) ∧
    (∀ i : Nat, i < xs.length → (ewm_mean xs span).get? i =
      some (expWeightedSum (2 / ((span : ℚ) + 1)) ((xs.take (i+1)).reverse) /
            weightSum (2 / ((span : ℚ) + 1)) (i+1))) := by
  intro xs span
  refine ⟨ewmGo_length _ xs 0 0, ?_, ?_⟩
  · intro x t hx
    subst hx
    show some ((x + (1 - 2 / ((span : ℚ) + 1)) * 0) / (1 + (1 - 2 / ((span : ℚ) + 1)) * 0))
      = some x
    norm_num
  · intro i hi
    have h := ewmGo_get? (2 / ((span : ℚ) + 1)) xs 0 0 i hi
    rw [show ewm_mean xs span = ewmGo (2 / ((span : ℚ) + 1)) xs 0 0 from rfl, h]
    norm_num

/-- Witness for `C4_adjusted_ema` on the concrete series `[0, 1]` with the
MACD fast span 12. -/
theorem C4_adjusted_ema_witness :
    (ewm_mean [0, 1] 12).length = 2 ∧
    (ewm_mean [0, 1] 12).get? 0 = some 0 ∧
    (ewm_mean [0, 1] 12).get? 1 =
      some (expWeightedSum (2 / (((12 : Nat) : ℚ) + 1)) (([0, 1].take 2).reverse) /
            weightSum (2 / (((12 : Nat) : ℚ) + 1)) 2) :=
  ⟨(C4_adjusted_ema [0, 1] 12).1,
   (C4_adjusted_ema [0, 1] 12).2.1 0 [1] rfl,
   (C4_adjusted_ema [0, 1] 12).2.2 1 (by decide)⟩

/-- Counterexample to C4 as stated: for the series `[0, 1]` and span 12
(the MACD fast span), the code's EMA value at index 1 is 13/24, which is not
`α·series[1] + (1-α)·ema[0] = 2/13` — the claimed recurrence fails. -/
theorem C4_counterexample :
    (ewm_mean [0, 1] 12).get? 1 = some (13/24) ∧
    (13 / 24 : ℚ) ≠ (2 / (((12 : Nat) : ℚ) + 1)) * 1 +
      (1 - 2 / (((12 : Nat) : ℚ) + 1)) * 0 := by
  constructor
  · with_unfolding_all decide
  · with_unfolding_all decide

/-! ### RSI zero-loss behaviour -/

lemma zipWith_get? {α β γ : Type} (f : α → β → γ) :
    ∀ (xs : List α) (ys : List β) (i : Nat),
      (List.zipWith f xs ys).get? i =
        (xs.get? i).bind fun x => (ys.get? i).map (f x) := by
  intro xs
  induction xs with
  | nil => intro ys i; rfl
  | cons x t ih =>
    intro ys i
    cases ys with
    | nil =>
      cases i with
      | zero => rfl
      | succ i =>
        show (none : Option γ) = (t.get? i).bind fun x => Option.map (f x) (none : Option β)
        cases t.get? i <;> rfl
    | cons y u =>
      cases i with
      | zero => rfl
      | succ i => exact ih u i

/-- C5 (amended): whenever the 14-bar average loss is 0 and the 14-bar
average gain is positive at some index, the RSI value there is 100 — but it
is produced by letting RS become the IEEE infinity (`gain/0 = +∞`, then
`100 - 100/(1+∞) = 100`), not by an explicit special case; the infinite RS
yields 100, never NaN. -/
theorem C5_rsi_zero_loss : ∀ (prices : List ℚ) (i : Nat) (g : ℚ),
    (rsiLossAvg prices 14).get? i = some (FVq.fin 0) →
    (rsiGainAvg prices 14).get? i = some (FVq.fin g) →
    0 < g →
    (rsiRS prices 14).get? i = some FVq.pinf ∧
    (calculate_rsi prices 14).get? i = some (FVq.fin 100) := by
  intro prices i g hl hg hpos
  have hrs : (rsiRS prices 14).get? i = some FVq.pinf := by
    rw [rsiRS, zipWith_get? fdiv, hg, hl]
    simp [fdiv, hpos.ne', hpos]
  refine ⟨hrs, ?_⟩
  rw [calculate_rsi, List.get?_map, hrs]
  simp [fsub, fadd, fneg, fdiv]

/-- Witness for `C5_rsi_zero_loss`: on the strictly rising closes
`upPrices`, index 14 has average loss 0 and average gain 1, RS is +∞ and
RSI is 100. -/
theorem C5_rsi_zero_loss_witness :
    (rsiLossAvg upPrices 14).get? 14 = some (FVq.fin 0) ∧
    (rsiGainAvg upPrices 14).get? 14 = some (FVq.fin 1) ∧
    (rsiRS upPrices 14).get? 14 = some FVq.pinf ∧
    (calculate_rsi upPrices 14).get? 14 = some (FVq.fin 100) :=
  ⟨by with_unfolding_all decide, by with_unfolding_all decide,
   (C5_rsi_zero_loss upPrices 14 1 (by with_unfolding_all decide)
     (by with_unfolding_all decide) (by norm_num)).1,
   (C5_rsi_zero_loss upPrices 14 1 (by with_unfolding_all decide)
     (by with_unfolding_all decide) (by norm_num)).2⟩

/-- Counterexample to C5 as stated: at a concrete input (strictly rising
closes, index 14) the code's RS value is the infinity `pinf` — the claimed
"explicit special case rather than letting RS become infinite" does not
exist in the code — while the RSI value is still 100, not NaN. -/
theorem C5_counterexample :
    (rsiRS upPrices 14).get? 14 = some FVq.pinf ∧
    (calculate_rsi upPrices 14).get? 14 = some (FVq.fin 100) := by
  with_unfolding_all decide


/-! ### RSI bounds -/

lemma mem_zipWith {α β γ : Type} {f : α → β → γ} {c : γ} :
    ∀ {xs : List α} {ys : List β}, c ∈ List.zipWith f xs ys →
      ∃ x ∈ xs, ∃ y ∈ ys, c = f x y := by
  intro xs
  induction xs with
  | nil => intro ys h; simp [List.zipWith] at h
  | cons x t ih =>
    intro ys h
    cases ys with
    | nil => simp [List.zipWith] at h
    | cons y u =>
      rcases List.mem_cons.mp h with h | h
      · exact ⟨x, List.mem_cons_self _ _, y, List.mem_cons_self _ _, h⟩
      · obtain ⟨a, ha, b, hb, hc⟩ := ih h
        exact ⟨a, List.mem_cons_of_mem _ ha, b, List.mem_cons_of_mem _ hb, hc⟩

lemma diffGo_mem : ∀ (p : ℚ) (xs : List ℚ) {d : FVq}, d ∈ diffGo p xs →
    ∃ q : ℚ, d = FVq.fin q := by
  intro p xs
  induction xs generalizing p with
  | nil => intro d h; simp [diffGo] at h
  | cons x t ih =>
    intro d h
    rw [diffGo] at h
    rcases List.mem_cons.mp h with h | h
    · exact ⟨x - p, h⟩
    · exact ih x h

lemma diffQ_mem {prices : List ℚ} {d : FVq} (h : d ∈ diffQ prices) :
    d = FVq.nan ∨ ∃ q : ℚ, d = FVq.fin q := by
  cases prices with
  | nil => simp [diffQ] at h
  | cons x xs =>
    rw [diffQ] at h
    rcases List.mem_cons.mp h with h | h
    · exact Or.inl h
    · exact Or.inr (diffGo_mem x xs h)

lemma rsiGain_mem {prices : List ℚ} {v : FVq} (h : v ∈ rsiGain prices) :
    ∃ q : ℚ, v = FVq.fin q ∧ 0 ≤ q := by
  rw [rsiGain] at h
  obtain ⟨d, hd, hfd⟩ := List.mem_map.mp h
  by_cases hg : fgt d (FVq.fin 0) = true
  · rw [if_pos hg] at hfd
    rcases diffQ_mem hd with rfl | ⟨q, rfl⟩
    · exact absurd hg (by rw [show fgt FVq.nan (FVq.fin 0) = false from rfl]; simp)
    · have : (0:ℚ) < q := by simpa [fgt, flt] using hg
      exact ⟨q, hfd.symm, le_of_lt this⟩
  · rw [if_neg hg] at hfd
    exact ⟨0, hfd.symm, le_refl 0⟩

lemma rsiLoss_mem {prices : List ℚ} {v : FVq} (h : v ∈ rsiLoss prices) :
    ∃ q : ℚ, v = FVq.fin q ∧ 0 ≤ q := by
  rw [rsiLoss] at h
  obtain ⟨w, hw, hfw⟩ := List.mem_map.mp h
  obtain ⟨d, hd, hfd⟩ := List.mem_map.mp hw
  by_cases hg : flt d (FVq.fin 0) = true
  · rw [if_pos hg] at hfd
    rcases diffQ_mem hd with rfl | ⟨q, rfl⟩
    · exact absurd hg (by rw [show flt FVq.nan (FVq.fin 0) = false from rfl]; simp)
    · have hq : q < 0 := by simpa [flt] using hg
      subst hfd
      exact ⟨-q, hfw.symm, by linarith⟩
  · rw [if_neg hg] at hfd
    subst hfd
    exact ⟨-0, hfw.symm, by norm_num⟩

lemma foldr_fadd_fin : ∀ l : List FVq, (∀ x ∈ l, ∃ q : ℚ, x = FVq.fin q ∧ 0 ≤ q) →
    ∃ s : ℚ, l.foldr fadd (FVq.fin 0) = FVq.fin s ∧ 0 ≤ s := by
  intro l
  induction l with
  | nil => intro _; exact ⟨0, rfl, le_refl 0⟩
  | cons x t ih =>
    intro h
    obtain ⟨q, hq, hq0⟩ := h x (List.mem_cons_self _ _)
    obtain ⟨s, hs, hs0⟩ := ih fun y hy => h y (List.mem_cons_of_mem _ hy)
    refine ⟨q + s, ?_, by linarith⟩
    rw [List.foldr_cons, hs, hq]
    rfl

lemma rollingMeanF_mem {xs : List FVq} {w : Nat} (hw : 0 < w)
    (hx : ∀ x ∈ xs, ∃ q : ℚ, x = FVq.fin q ∧ 0 ≤ q) :
    ∀ v ∈ rollingMeanF xs w, v = FVq.nan ∨ ∃ s : ℚ, v = FVq.fin s ∧ 0 ≤ s := by
  intro v hv
  rw [rollingMeanF] at hv
  obtain ⟨i, hi, hfi⟩ := List.mem_map.mp hv
  by_cases hc : i + 1 < w
  · rw [if_pos hc] at hfi; exact Or.inl hfi.symm
  · rw [if_neg hc] at hfi
    right
    have hsub : ∀ x ∈ (xs.take (i+1)).drop (i+1-w), ∃ q : ℚ, x = FVq.fin q ∧ 0 ≤ q :=
      fun x hx2 => hx x (List.take_subset _ _ (List.drop_subset _ _ hx2))
    obtain ⟨s, hs, hs0⟩ := foldr_fadd_fin _ hsub
    rw [hs] at hfi
    have hwq : ((w : ℚ)) ≠ 0 := Nat.cast_ne_zero.mpr hw.ne'
    have hwq0 : (0:ℚ) ≤ (w : ℚ) := by positivity
    refine ⟨s / (w : ℚ), ?_, div_nonneg hs0 hwq0⟩
    rw [← hfi]
    simp [fdiv, hwq]

lemma fadd_nan_right : ∀ a : FVq, fadd a FVq.nan = FVq.nan := by
  intro a; cases a <;> rfl

lemma fdiv_nan_left : ∀ a : FVq, fdiv FVq.nan a = FVq.nan := by
  intro a; cases a <;> rfl

lemma fdiv_nan_right : ∀ a : FVq, fdiv a FVq.nan = FVq.nan := by
  intro a; cases a <;> rfl

lemma fsub_nan_right : ∀ a : FVq, fsub a FVq.nan = FVq.nan := by
  intro a; cases a <;> rfl

/-- C6: every defined (finite) value of the RSI series, over any input
frame, lies in the closed interval [0, 100].  (Undefined positions are NaN:
the unfilled window prefix and the 0/0 case; the zero-loss case is the
defined value 100.) -/
theorem C6_rsi_bounds : ∀ (df : DF) (q : ℚ), FVq.fin q ∈ rsiSeries df →
    0 ≤ q ∧ q ≤ 100 := by
  intro df q hq
  rw [rsiSeries, calculate_rsi] at hq
  obtain ⟨r, hr, hfr⟩ := List.mem_map.mp hq
  rw [rsiRS] at hr
  obtain ⟨g, hg, l, hl, rfl⟩ := mem_zipWith hr
  have hG := rollingMeanF_mem (by norm_num) (fun x hx => rsiGain_mem hx) g hg
  have hL := rollingMeanF_mem (by norm_num) (fun x hx => rsiLoss_mem hx) l hl
  rcases hG with rfl | ⟨a, rfl, ha⟩
  · rw [fdiv_nan_left, fadd_nan_right, fdiv_nan_right, fsub_nan_right] at hfr
    exact absurd hfr (by simp)
  rcases hL with rfl | ⟨b, rfl, hb⟩
  · rw [fdiv_nan_right, fadd_nan_right, fdiv_nan_right, fsub_nan_right] at hfr
    exact absurd hfr (by simp)
  by_cases hb0 : b = 0
  · subst hb0
    by_cases ha0 : a = 0
    · subst ha0
      have hrs : fdiv (FVq.fin 0) (FVq.fin 0) = FVq.nan := by
        rw [show fdiv (FVq.fin 0) (FVq.fin 0)
            = if (0:ℚ) = 0 then (if (0:ℚ) = 0 then FVq.nan else if 0 < (0:ℚ) then FVq.pinf
              else FVq.ninf) else FVq.fin (0 / 0) from rfl]
        rw [if_pos rfl, if_pos rfl]
      rw [hrs, fadd_nan_right, fdiv_nan_right, fsub_nan_right] at hfr
      exact absurd hfr (by simp)
    · have hlt : (0:ℚ) < a := lt_of_le_of_ne ha (Ne.symm ha0)
      have hrs : fdiv (FVq.fin a) (FVq.fin 0) = FVq.pinf := by
        rw [show fdiv (FVq.fin a) (FVq.fin 0)
            = if (0:ℚ) = 0 then (if a = 0 then FVq.nan else if 0 < a then FVq.pinf
              else FVq.ninf) else FVq.fin (a / 0) from rfl]
        rw [if_pos rfl, if_neg ha0, if_pos hlt]
      rw [hrs, show fadd (FVq.fin 1) FVq.pinf = FVq.pinf from rfl,
        show fdiv (FVq.fin 100) FVq.pinf = FVq.fin 0 from rfl,
        show fsub (FVq.fin 100) (FVq.fin 0) = FVq.fin (100 + -0) from rfl] at hfr
      have hq100 : (100:ℚ) + -0 = q := by simpa only [FVq.fin.injEq] using hfr
      constructor <;> linarith
  · have hbp : (0:ℚ) < b := lt_of_le_of_ne hb (Ne.symm hb0)
    have ht : (0:ℚ) ≤ a / b := div_nonneg ha (le_of_lt hbp)
    have h1 : (0:ℚ) < 1 + a / b := by linarith
    have hrs : fdiv (FVq.fin a) (FVq.fin b) = FVq.fin (a / b) := by
      rw [show fdiv (FVq.fin a) (FVq.fin b)
          = if b = 0 then (if a = 0 then FVq.nan else if 0 < a then FVq.pinf
            else FVq.ninf) else FVq.fin (a / b) from rfl, if_neg hb0]
    have hdiv : fdiv (FVq.fin 100) (FVq.fin (1 + a / b)) = FVq.fin (100 / (1 + a / b)) := by
      rw [show fdiv (FVq.fin 100) (FVq.fin (1 + a / b))
          = if 1 + a / b = 0 then (if (100:ℚ) = 0 then FVq.nan else if 0 < (100:ℚ) then FVq.pinf
            else FVq.ninf) else FVq.fin (100 / (1 + a / b)) from rfl, if_neg h1.ne']
    rw [hrs, show fadd (FVq.fin 1) (FVq.fin (a / b)) = FVq.fin (1 + a / b) from rfl,
      hdiv, show fsub (FVq.fin 100) (FVq.fin (100 / (1 + a / b)))
        = FVq.fin (100 + -(100 / (1 + a / b))) from rfl] at hfr
    have hq100 : (100:ℚ) + -(100 / (1 + a / b)) = q := by
      simpa only [FVq.fin.injEq] using hfr
    have hdp : (0:ℚ) < 100 / (1 + a / b) := by positivity
    have hdle : (100:ℚ) / (1 + a / b) ≤ 100 := by
      rw [div_le_iff₀ h1]
      nlinarith
    constructor <;> linarith

/-- Witness for `C6_rsi_bounds`: on strictly rising closes the value 100
occurs in the RSI series, and it satisfies the bounds. -/
theorem C6_rsi_bounds_witness :
    FVq.fin 100 ∈ rsiSeries upDF ∧ (0:ℚ) ≤ 100 ∧ (100:ℚ) ≤ 100 :=
  ⟨by with_unfolding_all decide,
   (C6_rsi_bounds upDF 100 (by with_unfolding_all decide)).1,
   (C6_rsi_bounds upDF 100 (by with_unfolding_all decide)).2⟩

/-! ### Noninterference -/

lemma macd_rule_two {n m : Nat} (hn : 1 < n) (hm : 1 < m) (a b c d : ℚ) :
    macd_rule n a b c d = macd_rule m a b c d := by
  unfold macd_rule
  rw [if_pos hn, if_pos hm]

/-- C10: the verdict components (signals, overall, buy_strength,
sell_strength) of a run depend only on the latest and second-latest values
of the rsi, macd, macd_signal, bb_upper and bb_lower series and the latest
close: two runs agreeing on those values produce identical components.  In
particular sma_20 and sma_50 (computed into the frame but never read by a
rule) and all earlier indicator values have no influence. -/
theorem C10_noninterference : ∀ (df1 df2 : DF) (r1 r2 : SignalResult),
    generate_signals (some df1) = some r1 →
    generate_signals (some df2) = some r2 →
    ilast (rsiSeries df1) FVq.nan = ilast (rsiSeries df2) FVq.nan →
    iprev (rsiSeries df1) FVq.nan = iprev (rsiSeries df2) FVq.nan →
    ilast (macdSeries df1) 0 = ilast (macdSeries df2) 0 →
    iprev (macdSeries df1) 0 = iprev (macdSeries df2) 0 →
    ilast (macdSignalSeries df1) 0 = ilast (macdSignalSeries df2) 0 →
    iprev (macdSignalSeries df1) 0 = iprev (macdSignalSeries df2) 0 →
    ilast (bbUpperSeries df1) none = ilast (bbUpperSeries df2) none →
    iprev (bbUpperSeries df1) none = iprev (bbUpperSeries df2) none →
    ilast (bbLowerSeries df1) none = ilast (bbLowerSeries df2) none →
    iprev (bbLowerSeries df1) none = iprev (bbLowerSeries df2) none →
    ilast (closeSeries df1) 0 = ilast (closeSeries df2) 0 →
    r1.signals = r2.signals ∧ r1.overall = r2.overall ∧
    r1.buy_strength = r2.buy_strength ∧ r1.sell_strength = r2.sell_strength := by
  intro df1 df2 r1 r2 h1 h2 e1 e2 e3 e4 e5 e6 e7 e8 e9 e10 e11
  obtain ⟨hl1, hr1⟩ := generate_signals_eq_some h1
  obtain ⟨hl2, hr2⟩ := generate_signals_eq_some h2
  subst hr1
  subst hr2
  have hsig : signalsOf df1 = signalsOf df2 := by
    unfold signalsOf
    rw [e1, e3, e4, e5, e6, e7, e9, e11,
      macd_rule_two (show 1 < df1.bars.length by omega) (show 1 < df2.bars.length by omega)]
  exact ⟨hsig, by rw [hsig], by rw [hsig], by rw [hsig]⟩

/-- Witness for `C10_noninterference`: the runs on `exDF` and `exDFx` (equal
bars, different frames) agree on all verdict components. -/
theorem C10_noninterference_witness :
    exRes.signals = exResX.signals ∧ exRes.overall = exResX.overall ∧
    exRes.buy_strength = exResX.buy_strength ∧ exRes.sell_strength = exResX.sell_strength :=
  C10_noninterference exDF exDFx exRes exResX (by with_unfolding_all decide)
    (by with_unfolding_all decide) rfl rfl rfl rfl rfl rfl rfl rfl rfl rfl rfl


/-! ### Correctness of the band-value order against real square roots -/

/-- The decision procedure `qLtSq` agrees with the real-number order it
encodes: for a nonnegative radicand, `qLtSq c v` holds exactly when
`c < base + coeff·√rad` over ℝ. -/
lemma qLtSq_correct (c : ℚ) (v : SqVal) (hr : 0 ≤ v.rad) :
    qLtSq c v = true ↔ (c : ℝ) < (v.base : ℝ) + (v.coeff : ℝ) * Real.sqrt (v.rad : ℝ) := by
  obtain ⟨a, b, r⟩ := v
  simp only at hr ⊢
  set s : ℝ := Real.sqrt (r : ℝ) with hsdef
  have hs0 : 0 ≤ s := Real.sqrt_nonneg _
  have hs2 : s ^ 2 = (r : ℝ) := Real.sq_sqrt (by exact_mod_cast hr)
  rw [qLtSq]
  simp only
  by_cases h0 : r ≤ 0 ∨ b = 0
  · rw [if_pos h0]
    have hz : (b : ℝ) * s = 0 := by
      rcases h0 with h0 | h0
      · have : r = 0 := le_antisymm h0 hr
        subst this
        simp [hsdef]
      · subst h0
        simp
    rw [hz, add_zero]
    simp only [decide_eq_true_eq]
    exact_mod_cast Iff.rfl
  · rw [if_neg h0]
    push_neg at h0
    obtain ⟨hrpos, hbne⟩ := h0
    have hrpos' : (0 : ℝ) < (r : ℝ) := by exact_mod_cast hrpos
    have hspos : 0 < s := Real.sqrt_pos.mpr hrpos'
    by_cases hb : 0 < b
    · rw [if_pos hb]
      simp only [decide_eq_true_eq]
      have hbpos : (0 : ℝ) < (b : ℝ) := by exact_mod_cast hb
      constructor
      · rintro (hca | hsq)
        · have : (0 : ℝ) < (b : ℝ) * s := mul_pos hbpos hspos
          have hca' : (c : ℝ) ≤ (a : ℝ) := by exact_mod_cast hca
          linarith
        · have hsq' : ((c : ℝ) - a) ^ 2 < (b : ℝ) ^ 2 * (r : ℝ) := by exact_mod_cast hsq
          rw [← hs2] at hsq'
          by_cases hca : (c : ℝ) ≤ (a : ℝ)
          · have : (0 : ℝ) < (b : ℝ) * s := mul_pos hbpos hspos
            linarith
          · push_neg at hca
            nlinarith [mul_pos hbpos hspos]
      · intro h
        by_cases hca : c ≤ a
        · exact Or.inl hca
        · right
          push_neg at hca
          have hca' : (a : ℝ) < (c : ℝ) := by exact_mod_cast hca
          have key : ((c : ℝ) - a) ^ 2 < (b : ℝ) ^ 2 * s ^ 2 := by nlinarith
          rw [hs2] at key
          exact_mod_cast key
    · rw [if_neg hb]
      simp only [decide_eq_true_eq]
      have hbneg : (b : ℝ) < 0 := by
        have : b < 0 := lt_of_le_of_ne (le_of_not_lt hb) hbne
        exact_mod_cast this
      constructor
      · rintro ⟨hca, hsq⟩
        have hca' : (c : ℝ) < (a : ℝ) := by exact_mod_cast hca
        have hsq' : (b : ℝ) ^ 2 * (r : ℝ) < ((c : ℝ) - a) ^ 2 := by exact_mod_cast hsq
        rw [← hs2] at hsq'
        nlinarith [mul_pos (neg_pos.mpr hbneg) hspos]
      · intro h
        have hbs : (b : ℝ) * s < 0 := mul_neg_of_neg_of_pos hbneg hspos
        have hca' : (c : ℝ) < (a : ℝ) := by linarith
        constructor
        · exact_mod_cast hca'
        · have key : (b : ℝ) ^ 2 * s ^ 2 < ((c : ℝ) - a) ^ 2 := by nlinarith
          rw [hs2] at key
          exact_mod_cast key

/-- The decision procedure `sqLtQ` agrees with the real-number order it
encodes: for a nonnegative radicand, `sqLtQ v c` holds exactly when
`base + coeff·√rad < c` over ℝ. -/
lemma sqLtQ_correct (v : SqVal) (c : ℚ) (hr : 0 ≤ v.rad) :
    sqLtQ v c = true ↔ (v.base : ℝ) + (v.coeff : ℝ) * Real.sqrt (v.rad : ℝ) < (c : ℝ) := by
  obtain ⟨a, b, r⟩ := v
  simp only at hr ⊢
  set s : ℝ := Real.sqrt (r : ℝ) with hsdef
  have hs0 : 0 ≤ s := Real.sqrt_nonneg _
  have hs2 : s ^ 2 = (r : ℝ) := Real.sq_sqrt (by exact_mod_cast hr)
  rw [sqLtQ]
  simp only
  by_cases h0 : r ≤ 0 ∨ b = 0
  · rw [if_pos h0]
    have hz : (b : ℝ) * s = 0 := by
      rcases h0 with h0 | h0
      · have : r = 0 := le_antisymm h0 hr
        subst this
        simp [hsdef]
      · subst h0
        simp
    rw [hz, add_zero]
    simp only [decide_eq_true_eq]
    exact_mod_cast Iff.rfl
  · rw [if_neg h0]
    push_neg at h0
    obtain ⟨hrpos, hbne⟩ := h0
    have hrpos' : (0 : ℝ) < (r : ℝ) := by exact_mod_cast hrpos
    have hspos : 0 < s := Real.sqrt_pos.mpr hrpos'
    by_cases hb : 0 < b
    · rw [if_pos hb]
      simp only [decide_eq_true_eq]
      have hbpos : (0 : ℝ) < (b : ℝ) := by exact_mod_cast hb
      constructor
      · rintro ⟨hca, hsq⟩
        have hca' : (a : ℝ) < (c : ℝ) := by exact_mod_cast hca
        have hsq' : (b : ℝ) ^ 2 * (r : ℝ) < ((c : ℝ) - a) ^ 2 := by exact_mod_cast hsq
        rw [← hs2] at hsq'
        nlinarith [mul_pos hbpos hspos]
      · intro h
        have hbs : (0 : ℝ) < (b : ℝ) * s := mul_pos hbpos hspos
        have hca' : (a : ℝ) < (c : ℝ) := by linarith
        constructor
        · exact_mod_cast hca'
        · have key : (b : ℝ) ^ 2 * s ^ 2 < ((c : ℝ) - a) ^ 2 := by nlinarith
          rw [hs2] at key
          exact_mod_cast key
    · rw [if_neg hb]
      simp only [decide_eq_true_eq]
      have hbneg : (b : ℝ) < 0 := by
        have : b < 0 := lt_of_le_of_ne (le_of_not_lt hb) hbne
        exact_mod_cast this
      constructor
      · rintro (hca | hsq)
        · have hbs : (b : ℝ) * s < 0 := mul_neg_of_neg_of_pos hbneg hspos
          have hca' : (a : ℝ) ≤ (c : ℝ) := by exact_mod_cast hca
          linarith
        · have hsq' : ((c : ℝ) - a) ^ 2 < (b : ℝ) ^ 2 * (r : ℝ) := by exact_mod_cast hsq
          rw [← hs2] at hsq'
          by_cases hca : (a : ℝ) ≤ (c : ℝ)
          · have hbs : (b : ℝ) * s < 0 := mul_neg_of_neg_of_pos hbneg hspos
            linarith
          · push_neg at hca
            nlinarith [mul_pos (neg_pos.mpr hbneg) hspos]
      · intro h
        by_cases hca : a ≤ c
        · exact Or.inl hca
        · right
          push_neg at hca
          have hca' : (c : ℝ) < (a : ℝ) := by exact_mod_cast hca
          have key : ((c : ℝ) - a) ^ 2 < (b : ℝ) ^ 2 * s ^ 2 := by nlinarith
          rw [hs2] at key
          exact_mod_cast key

end TradingApp
